import Mathlib

/- Verification development for RedditArchiver.py (RedditPostDownloader v2.1.0).

   The Python source is shallowly embedded: pure functions become Lean
   functions over List Char / String / Nat / Int / Option, fallible code
   returns Except, and the external collaborators (the praw network fetch,
   markdown2.markdown, datetime strftime, the YAML config) are abstracted
   as explicit parameters of the embedded functions, as noted at each
   definition site. -/

/-! ## Identifier extraction: extract_id (RedditArchiver.py, lines 15-26)

The three regexes are hand-compiled to deterministic matchers.  Python
re.search with a pattern anchored by a leading caret (no MULTILINE flag)
matches only at the start of the string, and a dollar matches at the end
of the string or just before one final newline character.  Each pattern is
observationally deterministic: every quantified piece is followed either
by a character its character class cannot contain or by the end of the
pattern, so the greedy first attempt is the only relevant one.  This is
recorded at each combinator. -/

/-- The character class [a-z0-9] used for the captured submission id. -/
def isIdChar (c : Char) : Bool :=
  ('a' ≤ c && c ≤ 'z') || ('0' ≤ c && c ≤ '9')

/-- The character class [a-zA-Z0-9\-_] used for the community name. -/
def isCommunityChar (c : Char) : Bool :=
  ('a' ≤ c && c ≤ 'z') || ('A' ≤ c && c ≤ 'Z') || ('0' ≤ c && c ≤ '9')
    || c == '-' || c == '_'

/-- Admissible remainders after the captured group for the regexes that end
in an optional slash and a dollar: the slash is optional and the Python
dollar accepts the true end of the string or a position just before one
final newline. -/
def tailOK : List Char → Bool
  | [] => true
  | ['/'] => true
  | ['\n'] => true
  | ['/', '\n'] => true
  | _ => false

/-- Consume the literal token `pat` at the front of `l`, or fail. -/
def lit (pat l : List Char) : Option (List Char) :=
  if pat.isPrefixOf l then some (l.drop pat.length) else none

/-- First regex, r"^([a-z0-9]+)/?$": a maximal nonempty run of id
characters, followed by an admissible tail.  A shorter (backtracked) group
cannot match, because the next character would be an id character, which
is neither a slash nor an end-of-string position. -/
def reBare (l : List Char) : Option (List Char) :=
  let run := l.takeWhile isIdChar
  if run.isEmpty then none
  else if tailOK (l.drop run.length) then some run else none

/-- The optional alternation (?:old|new|www)? followed by the mandatory
literal dot.  Merging each alternative with the dot is faithful: if, say,
"old" matched but the following character were not a dot, the remaining
alternatives and the empty alternative would all fail as well, because the
input starts with the letter o and not with a dot. -/
def subdomainPart (l : List Char) : Option (List Char) :=
  match lit "old.".data l with
  | some r => some r
  | none =>
    match lit "new.".data l with
    | some r => some r
    | none =>
      match lit "www.".data l with
      | some r => some r
      | none => lit ".".data l

/-- The scheme https?:// shared by the second and third regexes.  The
optional s is deterministic: when the greedy attempt s:// fails, the
remainder cannot start with :// either unless it did not start with s. -/
def schemePart (l : List Char) : Option (List Char) :=
  match lit "http".data l with
  | none => none
  | some r =>
    match lit "s://".data r with
    | some r2 => some r2
    | none => lit "://".data r

/-- Second regex, the shortened permalink
r"^https?:\/\/(?:old|new|www)?\.reddit\.com\/([a-z0-9]+)\/?$". -/
def reShort (l : List Char) : Option (List Char) :=
  match schemePart l with
  | none => none
  | some r1 =>
    match subdomainPart r1 with
    | none => none
    | some r2 =>
      match lit "reddit.com/".data r2 with
      | none => none
      | some r3 =>
        let run := r3.takeWhile isIdChar
        if run.isEmpty then none
        else if tailOK (r3.drop run.length) then some run else none

/-- Third regex, the full permalink
r"^https?:\/\/(?:old|new|www)?\.reddit\.com\/r\/[a-zA-Z0-9\-_]+\/comments\/([a-z0-9]+)\/?".
There is no dollar, so anything may follow the captured id (the optional
slash consumes at most one character and the pattern then ends). -/
def reFull (l : List Char) : Option (List Char) :=
  match schemePart l with
  | none => none
  | some r1 =>
    match subdomainPart r1 with
    | none => none
    | some r2 =>
      match lit "reddit.com/r/".data r2 with
      | none => none
      | some r3 =>
        let comm := r3.takeWhile isCommunityChar
        if comm.isEmpty then none
        else
          match lit "/comments/".data (r3.drop comm.length) with
          | none => none
          | some r4 =>
            let run := r4.takeWhile isIdChar
            if run.isEmpty then none else some run

/-- extract_id (lines 15-26): try the three regexes in order and return
the first capture group; None when all three fail. -/
def extract_id (url : String) : Option String :=
  match reBare url.data with
  | some r => some (String.mk r)
  | none =>
    match reShort url.data with
    | some r => some (String.mk r)
    | none => (reFull url.data).map String.mk

/-! ### Helper lemmas for the matcher proofs -/

theorem takeWhile_all_append (p : Char → Bool) :
    ∀ (a b : List Char), (∀ c ∈ a, p c = true) → (∀ c ∈ b.take 1, p c = false) →
      (a ++ b).takeWhile p = a := by
  intro a b ha hb
  induction a with
  | nil =>
    cases b with
    | nil => rfl
    | cons c bs =>
      have : p c = false := hb c (by simp)
      simp [List.takeWhile, this]
  | cons c as ih =>
    have hc : p c = true := ha c (by simp)
    have ih2 := ih (fun x hx => ha x (by simp [hx]))
    simp [List.takeWhile, hc, ih2]

theorem tailOK_eq_false_of_two_lt (l : List Char) (h : 2 < l.length) :
    tailOK l = false := by
  unfold tailOK
  rcases l with _ | ⟨a, _ | ⟨b, _ | ⟨c, t⟩⟩⟩ <;> simp_all

theorem lit_self_append (pat r : List Char) : lit pat (pat ++ r) = some r := by
  unfold lit
  rw [if_pos]
  · simp
  · simp [List.isPrefixOf_iff_prefix]

/-- The shapes of URL scheme accepted by the second and third regexes. -/
def schemeStr (sec : Bool) : String := if sec then "https://" else "http://"

/-- The four shapes of the optional subdomain group with the mandatory dot. -/
def subdomainChoices : List String := ["old.", "new.", "www.", "."]

theorem schemePart_append (sec : Bool) (xs : List Char) :
    schemePart ((schemeStr sec).data ++ xs) = some xs := by
  cases sec <;> simp [schemePart, schemeStr, lit, List.isPrefixOf]

theorem subdomainPart_append (sub : String) (hsub : sub ∈ subdomainChoices) (xs : List Char) :
    subdomainPart (sub.data ++ xs) = some xs := by
  fin_cases hsub <;> simp [subdomainPart, lit, List.isPrefixOf]

theorem reBare_shape (l sl : List Char) (hne : l ≠ []) (hl : ∀ c ∈ l, isIdChar c = true)
    (hsl : sl = [] ∨ sl = ['/']) : reBare (l ++ sl) = some l := by
  have hrun : (l ++ sl).takeWhile isIdChar = l := by
    refine takeWhile_all_append _ _ _ hl ?_
    rcases hsl with h | h <;> subst h <;> intro c hc <;> simp at hc
    subst hc; decide
  have hdrop : (l ++ sl).drop l.length = sl := List.drop_left l sl
  have htail : tailOK sl = true := by rcases hsl with h | h <;> subst h <;> decide
  simp only [reBare, hrun, hdrop, htail, List.isEmpty_eq_false.mpr hne]
  simp

theorem reShort_shape (sec : Bool) (sub : String) (hsub : sub ∈ subdomainChoices)
    (l sl : List Char) (hne : l ≠ []) (hl : ∀ c ∈ l, isIdChar c = true)
    (hsl : sl = [] ∨ sl = ['/']) :
    reShort ((schemeStr sec).data ++ (sub.data ++ ("reddit.com/".data ++ (l ++ sl))))
      = some l := by
  have hrun : (l ++ sl).takeWhile isIdChar = l := by
    refine takeWhile_all_append _ _ _ hl ?_
    rcases hsl with h | h <;> subst h <;> intro c hc <;> simp at hc
    subst hc; decide
  have hdrop : (l ++ sl).drop l.length = sl := List.drop_left l sl
  have htail : tailOK sl = true := by rcases hsl with h | h <;> subst h <;> decide
  have hemp : l.isEmpty = false := List.isEmpty_eq_false.mpr hne
  fin_cases hsub <;> cases sec <;>
    simp [reShort, schemePart, subdomainPart, lit, List.isPrefixOf, schemeStr,
      hrun, hdrop, htail, hemp]

theorem reFull_shape (sec : Bool) (sub : String) (hsub : sub ∈ subdomainChoices)
    (comm l rest : List Char) (hcne : comm ≠ []) (hcl : ∀ c ∈ comm, isCommunityChar c = true)
    (hne : l ≠ []) (hl : ∀ c ∈ l, isIdChar c = true) :
    reFull ((schemeStr sec).data ++ (sub.data ++ ("reddit.com/r/".data ++
      (comm ++ ("/comments/".data ++ (l ++ '/' :: rest)))))) = some l := by
  have hcrun : (comm ++ ('/' :: 'c' :: 'o' :: 'm' :: 'm' :: 'e' :: 'n' :: 't' :: 's' :: '/' ::
      (l ++ '/' :: rest))).takeWhile isCommunityChar = comm := by
    refine takeWhile_all_append _ _ _ hcl ?_
    intro c hc; simp at hc; subst hc; decide
  have hcdropT : (comm ++ ('/' :: 'c' :: 'o' :: 'm' :: 'm' :: 'e' :: 'n' :: 't' :: 's' :: '/' ::
      (l ++ '/' :: rest))).drop comm.length
      = '/' :: 'c' :: 'o' :: 'm' :: 'm' :: 'e' :: 'n' :: 't' :: 's' :: '/' :: (l ++ '/' :: rest) :=
    List.drop_left comm _
  have hdrop2 : (comm ++ ('/' :: 'c' :: 'o' :: 'm' :: 'm' :: 'e' :: 'n' :: 't' :: 's' :: '/' ::
      (l ++ '/' :: rest))).drop (comm.length + 10) = l ++ '/' :: rest := by
    rw [← List.drop_drop, hcdropT]; rfl
  have hrun : (l ++ '/' :: rest).takeWhile isIdChar = l := by
    refine takeWhile_all_append _ _ _ hl ?_
    intro c hc; simp at hc; subst hc; decide
  have hcemp : comm.isEmpty = false := List.isEmpty_eq_false.mpr hcne
  have hemp : l.isEmpty = false := List.isEmpty_eq_false.mpr hne
  fin_cases hsub <;> cases sec <;>
    simp [reFull, schemePart, subdomainPart, lit, List.isPrefixOf, schemeStr,
      hcrun, hcdropT, hdrop2, hrun, hcemp, hemp]

theorem reShort_full_none (sec : Bool) (sub : String) (hsub : sub ∈ subdomainChoices)
    (comm l rest : List Char) :
    reShort ((schemeStr sec).data ++ (sub.data ++ ("reddit.com/r/".data ++
      (comm ++ ("/comments/".data ++ (l ++ '/' :: rest)))))) = none := by
  have hrrun : List.takeWhile isIdChar ('r' :: '/' ::
      (comm ++ '/' :: 'c' :: 'o' :: 'm' :: 'm' :: 'e' :: 'n' :: 't' :: 's' :: '/' ::
        (l ++ '/' :: rest))) = ['r'] := by
    simp [List.takeWhile, (by decide : isIdChar 'r' = true), (by decide : isIdChar '/' = false)]
  have htail : tailOK ('/' :: (comm ++ '/' :: 'c' :: 'o' :: 'm' :: 'm' :: 'e' :: 'n' :: 't' ::
      's' :: '/' :: (l ++ '/' :: rest))) = false := by
    refine tailOK_eq_false_of_two_lt _ ?_
    simp [List.length_append]
    omega
  fin_cases hsub <;> cases sec <;>
    simp [reShort, schemePart, subdomainPart, lit, List.isPrefixOf, schemeStr, hrrun, htail]

theorem reBare_url_none (sec : Bool) (xs : List Char) :
    reBare ((schemeStr sec).data ++ xs) = none := by
  cases sec <;> rfl

/-- C7: the Identifier Extractor tries the bare-id regex first, then the
shortened permalink regex, then the full permalink regex, returns the group
captured by the first regex that matches, returns none (the not-found
signal) exactly when none of the three match, and every string of one of
the three supported URL/id shapes yields its embedded id.  The extractor
is a pure function of the input string. -/
theorem c7_extract_id_contract :
    (∀ s r, reBare s.data = some r → extract_id s = some (String.mk r)) ∧
    (∀ s r, reBare s.data = none → reShort s.data = some r →
      extract_id s = some (String.mk r)) ∧
    (∀ s r, reBare s.data = none → reShort s.data = none → reFull s.data = some r →
      extract_id s = some (String.mk r)) ∧
    (∀ s, reBare s.data = none → reShort s.data = none → reFull s.data = none →
      extract_id s = none) ∧
    (∀ l sl, l ≠ [] → (∀ c ∈ l, isIdChar c = true) → (sl = [] ∨ sl = ['/']) →
      extract_id (String.mk (l ++ sl)) = some (String.mk l)) ∧
    (∀ (sec : Bool) (sub : String), sub ∈ subdomainChoices →
      ∀ l sl, l ≠ [] → (∀ c ∈ l, isIdChar c = true) → (sl = [] ∨ sl = ['/']) →
      extract_id (String.mk ((schemeStr sec).data ++ (sub.data ++
        ("reddit.com/".data ++ (l ++ sl))))) = some (String.mk l)) ∧
    (∀ (sec : Bool) (sub : String), sub ∈ subdomainChoices →
      ∀ comm l rest, comm ≠ [] → (∀ c ∈ comm, isCommunityChar c = true) →
      l ≠ [] → (∀ c ∈ l, isIdChar c = true) →
      extract_id (String.mk ((schemeStr sec).data ++ (sub.data ++ ("reddit.com/r/".data ++
        (comm ++ ("/comments/".data ++ (l ++ '/' :: rest))))))) = some (String.mk l)) := by
  refine ⟨?_, ?_, ?_, ?_, ?_, ?_, ?_⟩
  · intro s r h; unfold extract_id; rw [h]
  · intro s r h1 h2; unfold extract_id; rw [h1, h2]
  · intro s r h1 h2 h3; unfold extract_id; rw [h1, h2, h3]; rfl
  · intro s h1 h2 h3; unfold extract_id; rw [h1, h2, h3]; rfl
  · intro l sl hne hl hsl
    have h := reBare_shape l sl hne hl hsl
    unfold extract_id; rw [show (String.mk (l ++ sl)).data = l ++ sl from rfl, h]
  · intro sec sub hsub l sl hne hl hsl
    have h1 := reBare_url_none sec (sub.data ++ ("reddit.com/".data ++ (l ++ sl)))
    have h2 := reShort_shape sec sub hsub l sl hne hl hsl
    unfold extract_id
    rw [show (String.mk ((schemeStr sec).data ++ (sub.data ++
      ("reddit.com/".data ++ (l ++ sl))))).data = (schemeStr sec).data ++ (sub.data ++
      ("reddit.com/".data ++ (l ++ sl))) from rfl, h1, h2]
  · intro sec sub hsub comm l rest hcne hcl hne hl
    have h1 := reBare_url_none sec (sub.data ++ ("reddit.com/r/".data ++
      (comm ++ ("/comments/".data ++ (l ++ '/' :: rest)))))
    have h2 := reShort_full_none sec sub hsub comm l rest
    have h3 := reFull_shape sec sub hsub comm l rest hcne hcl hne hl
    unfold extract_id
    rw [show (String.mk ((schemeStr sec).data ++ (sub.data ++ ("reddit.com/r/".data ++
      (comm ++ ("/comments/".data ++ (l ++ '/' :: rest))))))).data
      = (schemeStr sec).data ++ (sub.data ++ ("reddit.com/r/".data ++
      (comm ++ ("/comments/".data ++ (l ++ '/' :: rest))))) from rfl, h1, h2, h3]
    rfl

theorem c7_extract_id_contract_witness :
    extract_id "abc123" = some "abc123" ∧
    extract_id "https://www.reddit.com/abc123/" = some "abc123" ∧
    extract_id "http://old.reddit.com/r/test-Sub_1/comments/xyz9/title" = some "xyz9" := by
  refine ⟨?_, ?_, ?_⟩
  · exact c7_extract_id_contract.2.2.2.2.1 "abc123".data [] (by decide) (by decide) (Or.inl rfl)
  · exact c7_extract_id_contract.2.2.2.2.2.1 true "www." (by decide) "abc123".data ['/']
      (by decide) (by decide) (Or.inr rfl)
  · exact c7_extract_id_contract.2.2.2.2.2.2 false "old." (by decide) "test-Sub_1".data
      "xyz9".data "title".data (by decide) (by decide) (by decide) (by decide)

/-! ## Tree reconstruction: download_submission (RedditArchiver.py, lines 124-149)

A praw comment carries its attributes and its already-expanded direct
replies (replace_more(limit=None) has run before the loop starts), so the
input of the loop is a forest of comment records.  The loop keeps a queue
seeded with the top-level comments; it pops the front comment, creates a
tree node for it attached to the node of its declared parent (a KeyError
escapes if comments_index has no such key), records its attributes in
comments_forest, and appends its direct replies to the end of the queue.
The tree structure is represented below by the list of
(node name, parent name) pairs in creation order, which together with the
root node "t3_" ++ submission id determines the anytree structure, and
the KeyError is represented by Except.error carrying the missing key. -/

/-- The attributes of one comment as praw exposes them to the loop. -/
structure CFields where
  id : String
  parent_id : String
  author : Option String
  body : Option String
  distinguished : Option String
  edited : Bool
  permalink : String
  is_submitter : Bool
  score : Int
  created_utc : Nat

/-- A fetched comment: its attributes plus its direct replies. -/
inductive RComment where
  | mk (fields : CFields) (replies : List RComment)

def RComment.fields : RComment → CFields
  | .mk f _ => f

def RComment.replies : RComment → List RComment
  | .mk _ rs => rs

/-- Total number of comments in a forest. -/
def lsize : List RComment → Nat
  | [] => 0
  | .mk _ rs :: cs => 1 + lsize rs + lsize cs

theorem lsize_cons (c : RComment) (q : List RComment) :
    lsize (c :: q) = 1 + lsize c.replies + lsize q := by
  cases c; simp [lsize, RComment.replies]

theorem lsize_append (a b : List RComment) : lsize (a ++ b) = lsize a + lsize b := by
  induction a with
  | nil => simp [lsize]
  | cons c cs ih => cases c; simp [lsize, ih]; omega

/-- All comments of a forest in depth-first order. -/
def allL : List RComment → List RComment
  | [] => []
  | .mk f rs :: cs => .mk f rs :: (allL rs ++ allL cs)

theorem allL_cons (c : RComment) (q : List RComment) :
    allL (c :: q) = c :: (allL c.replies ++ allL q) := by
  cases c; simp [allL, RComment.replies]

theorem allL_append (a b : List RComment) : allL (a ++ b) = allL a ++ allL b := by
  induction a with
  | nil => simp [allL]
  | cons c cs ih => cases c; simp [allL, ih]

/-- All comments of a forest in the order the queue of download_submission
pops them (breadth-first). -/
def bfsFlatten : List RComment → List RComment
  | [] => []
  | c :: q => c :: bfsFlatten (q ++ c.replies)
termination_by q => lsize q
decreasing_by simp [lsize_append, lsize_cons]; omega

/-- One entry of comments_forest, the dict built on line 146 with keys
a (author), b (body), d (distinguished), e (edited), l (permalink),
o (is_submitter), s (score), t (created_utc). -/
structure CommentData where
  a : String
  b : String
  d : Option String
  e : Bool
  l : String
  o : Bool
  s : Int
  t : Nat

/-- Line 146: the record stored for a comment.  A missing author or body is
replaced by the string "(deleted)" right here, in the fetch step. -/
def recOf (c : RComment) : CommentData :=
  ⟨(match c.fields.author with | none => "(deleted)" | some n => n),
   (match c.fields.body with | none => "(deleted)" | some b => b),
   c.fields.distinguished, c.fields.edited, c.fields.permalink,
   c.fields.is_submitter, c.fields.score, c.fields.created_utc⟩

/-- The (node name, parent name) pair created for a comment on line 145. -/
def edgeOf (c : RComment) : String × String :=
  ("t1_" ++ c.fields.id, c.fields.parent_id)

/-- The while loop of lines 143-147.  The keys of comments_index are the
root name "t3_" ++ sid (created line 135) plus the names of the nodes
created so far; comments_index[comment.parent_id] raises KeyError when
the declared parent is not among them. -/
def buildLoop (sid : String) :
    List RComment → List (String × String) → List (String × CommentData) →
      Except String (List (String × String) × List (String × CommentData))
  | [], idx, forest => .ok (idx, forest)
  | c :: q, idx, forest =>
    if c.fields.parent_id ∈ ("t3_" ++ sid) :: idx.map Prod.fst then
      buildLoop sid (q ++ c.replies) (idx ++ [edgeOf c])
        (forest ++ [("t1_" ++ c.fields.id, recOf c)])
    else .error c.fields.parent_id
termination_by q _ _ => lsize q
decreasing_by simp [lsize_append, lsize_cons]; omega

/-- download_submission (lines 124-149): seed the queue with the top-level
comments and run the loop. -/
def download_submission (sid : String) (top : List RComment) :
    Except String (List (String × String) × List (String × CommentData)) :=
  buildLoop sid top [] []

/-- A forest is internally parent-consistent when every reply declares as
parent the node name of the comment the platform returned it under. -/
def wfL : List RComment → Bool
  | [] => true
  | .mk f rs :: cs =>
    rs.all (fun r => r.fields.parent_id == "t1_" ++ f.id) && wfL rs && wfL cs

/-- The fetched forest is parent-consistent for submission sid: top-level
comments declare the root post, replies declare their enclosing comment. -/
def wfTop (sid : String) (top : List RComment) : Bool :=
  top.all (fun c => c.fields.parent_id == "t3_" ++ sid) && wfL top

/-- Depth of a name in the reconstructed tree: length of the parent chain
down to the root name, following the recorded parent pairs, with fuel. -/
def depthIn (idx : List (String × String)) (root : String) : Nat → String → Option Nat
  | 0, _ => none
  | fuel + 1, n =>
    if n = root then some 0
    else (idx.find? (fun e => e.1 == n)).bind fun e =>
      (depthIn idx root fuel e.2).map (· + 1)

/-! ### Structure of the breadth-first pop order -/

/-- Direct replies of every comment in the queue, in queue order: the
elements the queue will contain once the current level is exhausted. -/
def childQueue : List RComment → List RComment
  | [] => []
  | c :: q => c.replies ++ childQueue q

theorem childQueue_append (a b : List RComment) :
    childQueue (a ++ b) = childQueue a ++ childQueue b := by
  induction a with
  | nil => simp [childQueue]
  | cons c as ih => simp [childQueue, ih]

theorem lsize_childQueue (q : List RComment) :
    lsize (childQueue q) + q.length = lsize q := by
  induction q with
  | nil => simp [childQueue, lsize]
  | cons c as ih =>
    cases c
    simp [childQueue, lsize, lsize_append, RComment.replies] at *
    omega

theorem bfsFlatten_append (a b : List RComment) :
    bfsFlatten (a ++ b) = a ++ bfsFlatten (b ++ childQueue a) := by
  induction a generalizing b with
  | nil => simp [childQueue]
  | cons c as ih =>
    have h1 : bfsFlatten (c :: (as ++ b)) = c :: bfsFlatten ((as ++ b) ++ c.replies) := by
      simp [bfsFlatten]
    have h2 := ih (b ++ c.replies)
    calc bfsFlatten ((c :: as) ++ b) = c :: bfsFlatten (as ++ (b ++ c.replies)) := by
          rw [List.cons_append, h1, List.append_assoc]
      _ = c :: (as ++ bfsFlatten ((b ++ c.replies) ++ childQueue as)) := by rw [h2]
      _ = (c :: as) ++ bfsFlatten (b ++ childQueue (c :: as)) := by
          simp [childQueue, List.append_assoc]

/-- The queue discipline: one whole level is emitted before any of its
children, and the children of a level form the next level in order. -/
theorem bfsFlatten_level (q : List RComment) :
    bfsFlatten q = q ++ bfsFlatten (childQueue q) := by
  have h := bfsFlatten_append q []
  simpa using h

theorem bfsFlatten_perm : ∀ q, List.Perm (bfsFlatten q) (allL q)
  | [] => by simp [bfsFlatten, allL]
  | c :: q => by
    have ih := bfsFlatten_perm (q ++ c.replies)
    rw [show bfsFlatten (c :: q) = c :: bfsFlatten (q ++ c.replies) from by simp [bfsFlatten],
      allL_cons]
    refine List.Perm.cons c (ih.trans ?_)
    rw [allL_append]
    exact List.perm_append_comm
termination_by q => lsize q
decreasing_by simp [lsize_append, lsize_cons]; omega

theorem mem_allL_of_mem {x : RComment} : ∀ {q : List RComment}, x ∈ q → x ∈ allL q := by
  intro q
  induction q with
  | nil => intro h; simp at h
  | cons c as ih =>
    intro h
    rw [allL_cons]
    rcases List.mem_cons.mp h with h1 | h1
    · exact List.mem_cons.mpr (Or.inl h1)
    · exact List.mem_cons.mpr (Or.inr (List.mem_append.mpr (Or.inr (ih h1))))

theorem mem_allL_childQueue {x : RComment} :
    ∀ {q : List RComment}, x ∈ allL (childQueue q) → x ∈ allL q := by
  intro q
  induction q with
  | nil => intro h; simp [childQueue, allL] at h
  | cons c as ih =>
    intro h
    rw [show childQueue (c :: as) = c.replies ++ childQueue as from rfl, allL_append] at h
    rw [allL_cons]
    rcases List.mem_append.mp h with h1 | h1
    · exact List.mem_cons.mpr (Or.inr (List.mem_append.mpr (Or.inl h1)))
    · exact List.mem_cons.mpr (Or.inr (List.mem_append.mpr (Or.inr (ih h1))))

theorem bfs_filter_nil (pred : RComment → Bool) :
    ∀ q, (∀ x ∈ allL q, pred x = false) → (bfsFlatten q).filter pred = []
  | [] => by intro h; simp [bfsFlatten]
  | c :: q => by
    intro h
    have ih := bfs_filter_nil pred (childQueue (c :: q))
      (fun x hx => h x (mem_allL_childQueue hx))
    rw [bfsFlatten_level, List.filter_append, ih, List.append_nil]
    exact List.filter_eq_nil_iff.mpr fun x hx => by simp [h x (mem_allL_of_mem hx)]
termination_by q => lsize q
decreasing_by have h2 := lsize_childQueue (c :: q); simp [List.length_cons] at h2 ⊢; omega

theorem replies_sublist_bfs : ∀ q (p : RComment), p ∈ allL q →
    p.replies.Sublist (bfsFlatten q)
  | [] => by intro p h; simp [allL] at h
  | c :: q => by
    intro p hp
    rw [show bfsFlatten (c :: q) = c :: bfsFlatten (q ++ c.replies) from by simp [bfsFlatten]]
    rw [allL_cons] at hp
    rcases List.mem_cons.mp hp with h | h
    · subst h
      have h1 : p.replies.Sublist (q ++ p.replies) := List.sublist_append_right _ _
      have h2 : (q ++ p.replies).Sublist (bfsFlatten (q ++ p.replies)) := by
        rw [bfsFlatten_level (q ++ p.replies)]
        exact List.sublist_append_left _ _
      exact (h1.trans h2).cons _
    · have hmem : p ∈ allL (q ++ c.replies) := by
        rw [allL_append]
        rcases List.mem_append.mp h with h1 | h1
        · exact List.mem_append.mpr (Or.inr h1)
        · exact List.mem_append.mpr (Or.inl h1)
      exact (replies_sublist_bfs (q ++ c.replies) p hmem).cons _
termination_by q => lsize q
decreasing_by simp [lsize_append, lsize_cons]; omega

theorem wfL_cons (c : RComment) (q : List RComment) :
    wfL (c :: q) = ((c.replies.all fun r => r.fields.parent_id == "t1_" ++ c.fields.id) &&
      wfL c.replies && wfL q) := by
  cases c; simp [wfL, RComment.replies, RComment.fields]

theorem wfL_append (a b : List RComment) : wfL (a ++ b) = (wfL a && wfL b) := by
  induction a with
  | nil => simp [wfL]
  | cons c as ih => rw [List.cons_append, wfL_cons, wfL_cons, ih]; simp [Bool.and_assoc]

/-- When every queued comment's declared parent is already a key of the
index and the queue is parent-consistent, the loop succeeds and appends
one index entry and one forest record per comment, in pop order. -/
theorem buildLoop_ok (sid : String) : ∀ (q : List RComment) idx forest,
    (∀ c ∈ q, c.fields.parent_id ∈ ("t3_" ++ sid) :: idx.map Prod.fst) →
    wfL q = true →
    buildLoop sid q idx forest =
      .ok (idx ++ (bfsFlatten q).map edgeOf,
           forest ++ (bfsFlatten q).map (fun c => ("t1_" ++ c.fields.id, recOf c)))
  | [] => by intro idx forest _ _; simp [buildLoop, bfsFlatten]
  | c :: q => by
    intro idx forest hq hw
    rw [wfL_cons] at hw
    simp only [Bool.and_eq_true, List.all_eq_true] at hw
    obtain ⟨⟨hrepl, hwrepl⟩, hwq⟩ := hw
    have hin : c.fields.parent_id ∈ ("t3_" ++ sid) :: idx.map Prod.fst :=
      hq c (List.mem_cons_self c q)
    have hq2 : ∀ x ∈ q ++ c.replies,
        x.fields.parent_id ∈ ("t3_" ++ sid) :: (idx ++ [edgeOf c]).map Prod.fst := by
      intro x hx
      rcases List.mem_append.mp hx with h1 | h1
      · have := hq x (List.mem_cons_of_mem c h1)
        simp only [List.map_append, List.mem_cons, List.mem_append] at this ⊢
        tauto
      · have := hrepl x h1
        simp only [beq_iff_eq] at this
        simp [this, edgeOf]
    have hw2 : wfL (q ++ c.replies) = true := by
      rw [wfL_append, hwq, hwrepl]; rfl
    have ih := buildLoop_ok sid (q ++ c.replies) (idx ++ [edgeOf c])
      (forest ++ [("t1_" ++ c.fields.id, recOf c)]) hq2 hw2
    rw [show buildLoop sid (c :: q) idx forest =
      buildLoop sid (q ++ c.replies) (idx ++ [edgeOf c])
        (forest ++ [("t1_" ++ c.fields.id, recOf c)]) from by
        simp [buildLoop, hin], ih,
      show bfsFlatten (c :: q) = c :: bfsFlatten (q ++ c.replies) from by simp [bfsFlatten]]
    simp
termination_by q => lsize q
decreasing_by simp [lsize_append, lsize_cons]; omega

/-! ### Name arithmetic and forest structure facts -/

theorem t1_inj {a b : String} (h : "t1_" ++ a = "t1_" ++ b) : a = b := by
  have h2 := congrArg String.data h
  rw [String.data_append, String.data_append] at h2
  exact String.ext (List.append_cancel_left h2)

theorem t3_ne_t1 (a b : String) : ("t3_" ++ a) ≠ ("t1_" ++ b) := by
  intro h
  have h2 := congrArg String.data h
  rw [String.data_append, String.data_append] at h2
  simp at h2

/-- In a parent-consistent forest every comment is either a queue-seed
top-level comment or a direct reply of the comment it names as parent. -/
theorem parent_shape_aux : ∀ (q : List RComment), wfL q = true →
    ∀ x ∈ allL q, x ∈ q ∨
      ∃ y ∈ allL q, x ∈ y.replies ∧ x.fields.parent_id = "t1_" ++ y.fields.id
  | [] => by intro _ x hx; simp [allL] at hx
  | c :: q => by
    intro hw x hx
    rw [wfL_cons] at hw
    simp only [Bool.and_eq_true, List.all_eq_true] at hw
    obtain ⟨⟨hrepl, hwrepl⟩, hwq⟩ := hw
    rw [allL_cons] at hx
    have hmem1 : ∀ y, y ∈ allL c.replies → y ∈ allL (c :: q) := by
      intro y hy
      rw [allL_cons]
      exact List.mem_cons_of_mem _ (List.mem_append.mpr (Or.inl hy))
    have hmem2 : ∀ y, y ∈ allL q → y ∈ allL (c :: q) := by
      intro y hy
      rw [allL_cons]
      exact List.mem_cons_of_mem _ (List.mem_append.mpr (Or.inr hy))
    rcases List.mem_cons.mp hx with h | h
    · exact Or.inl (h ▸ List.mem_cons_self c q)
    rcases List.mem_append.mp h with h1 | h1
    · rcases parent_shape_aux c.replies hwrepl x h1 with h2 | ⟨y, hy, hyr, hyp⟩
      · refine Or.inr ⟨c, mem_allL_of_mem (List.mem_cons_self c q), h2, ?_⟩
        have := hrepl x h2
        simpa using this
      · exact Or.inr ⟨y, hmem1 y hy, hyr, hyp⟩
    · rcases parent_shape_aux q hwq x h1 with h2 | ⟨y, hy, hyr, hyp⟩
      · exact Or.inl (List.mem_cons_of_mem _ h2)
      · exact Or.inr ⟨y, hmem2 y hy, hyr, hyp⟩
termination_by q => lsize q
decreasing_by all_goals (simp [lsize_append, lsize_cons] <;> omega)

theorem parent_shape (sid : String) (top : List RComment) (hwf : wfTop sid top = true) :
    ∀ x ∈ allL top, (x ∈ top ∧ x.fields.parent_id = "t3_" ++ sid) ∨
      ∃ y ∈ allL top, x ∈ y.replies ∧ x.fields.parent_id = "t1_" ++ y.fields.id := by
  intro x hx
  unfold wfTop at hwf
  simp only [Bool.and_eq_true, List.all_eq_true] at hwf
  obtain ⟨htop, hw⟩ := hwf
  rcases parent_shape_aux top hw x hx with h | h
  · exact Or.inl ⟨h, by simpa using htop x h⟩
  · exact Or.inr h

/-- With globally distinct comment ids, a comment whose declared parent is
the node name of p is one of the direct replies of p. -/
theorem child_mem_replies (sid : String) (top : List RComment)
    (hwf : wfTop sid top = true)
    (hnd : ((allL top).map (fun c => c.fields.id)).Nodup) :
    ∀ p ∈ allL top, ∀ x ∈ allL top,
      x.fields.parent_id = "t1_" ++ p.fields.id → x ∈ p.replies := by
  intro p hp x hx hpar
  rcases parent_shape sid top hwf x hx with ⟨_, hroot⟩ | ⟨y, hy, hyr, hyp⟩
  · exact absurd (hroot.symm.trans hpar) (t3_ne_t1 sid p.fields.id)
  · have hid : y.fields.id = p.fields.id := t1_inj (hyp ▸ hpar)
    have : y = p := List.inj_on_of_nodup_map hnd hy hp hid
    exact this ▸ hyr

/-! ### What any successful build contains, and when the build fails -/

theorem buildLoop_extends (sid : String) : ∀ (q : List RComment) idx forest idx2 f2,
    buildLoop sid q idx forest = .ok (idx2, f2) → ∃ t, idx2 = idx ++ t
  | [] => by
    intro idx forest idx2 f2 h
    simp [buildLoop] at h
    exact ⟨[], by simp [h.1]⟩
  | c :: q => by
    intro idx forest idx2 f2 h
    by_cases hin : c.fields.parent_id ∈ ("t3_" ++ sid) :: idx.map Prod.fst
    · rw [show buildLoop sid (c :: q) idx forest =
        buildLoop sid (q ++ c.replies) (idx ++ [edgeOf c])
          (forest ++ [("t1_" ++ c.fields.id, recOf c)]) from by simp [buildLoop, hin]] at h
      obtain ⟨t, ht⟩ := buildLoop_extends sid (q ++ c.replies) _ _ _ _ h
      exact ⟨edgeOf c :: t, by simp [ht]⟩
    · rw [show buildLoop sid (c :: q) idx forest = .error c.fields.parent_id from by
        simp [buildLoop, hin]] at h
      cases h
termination_by q => lsize q
decreasing_by simp [lsize_append, lsize_cons]; omega

theorem buildLoop_complete (sid : String) : ∀ (q : List RComment) idx forest idx2 f2,
    buildLoop sid q idx forest = .ok (idx2, f2) → ∀ c ∈ allL q, edgeOf c ∈ idx2
  | [] => by intro idx forest idx2 f2 _ c hc; simp [allL] at hc
  | c :: q => by
    intro idx forest idx2 f2 h x hx
    by_cases hin : c.fields.parent_id ∈ ("t3_" ++ sid) :: idx.map Prod.fst
    · rw [show buildLoop sid (c :: q) idx forest =
        buildLoop sid (q ++ c.replies) (idx ++ [edgeOf c])
          (forest ++ [("t1_" ++ c.fields.id, recOf c)]) from by simp [buildLoop, hin]] at h
      rw [allL_cons] at hx
      rcases List.mem_cons.mp hx with h1 | h1
      · obtain ⟨t, ht⟩ := buildLoop_extends sid (q ++ c.replies) _ _ _ _ h
        subst h1
        simp [ht]
      · have hmem : x ∈ allL (q ++ c.replies) := by
          rw [allL_append]
          rcases List.mem_append.mp h1 with h2 | h2
          · exact List.mem_append.mpr (Or.inr h2)
          · exact List.mem_append.mpr (Or.inl h2)
        exact buildLoop_complete sid (q ++ c.replies) _ _ _ _ h x hmem
    · rw [show buildLoop sid (c :: q) idx forest = .error c.fields.parent_id from by
        simp [buildLoop, hin]] at h
      cases h
termination_by q => lsize q
decreasing_by simp [lsize_append, lsize_cons]; omega

theorem buildLoop_names (sid : String) : ∀ (q : List RComment) idx forest idx2 f2,
    buildLoop sid q idx forest = .ok (idx2, f2) → ∀ c ∈ allL q,
      c.fields.parent_id ∈ ("t3_" ++ sid) ::
        (idx.map Prod.fst ++ (allL q).map (fun x => "t1_" ++ x.fields.id))
  | [] => by intro idx forest idx2 f2 _ c hc; simp [allL] at hc
  | c :: q => by
    intro idx forest idx2 f2 h x hx
    by_cases hin : c.fields.parent_id ∈ ("t3_" ++ sid) :: idx.map Prod.fst
    · rw [show buildLoop sid (c :: q) idx forest =
        buildLoop sid (q ++ c.replies) (idx ++ [edgeOf c])
          (forest ++ [("t1_" ++ c.fields.id, recOf c)]) from by simp [buildLoop, hin]] at h
      rw [allL_cons] at hx
      rcases List.mem_cons.mp hx with h1 | h1
      · subst h1
        rcases List.mem_cons.mp hin with h2 | h2
        · exact List.mem_cons.mpr (Or.inl h2)
        · exact List.mem_cons.mpr (Or.inr (List.mem_append.mpr (Or.inl h2)))
      · have hmem : x ∈ allL (q ++ c.replies) := by
          rw [allL_append]
          rcases List.mem_append.mp h1 with h2 | h2
          · exact List.mem_append.mpr (Or.inr h2)
          · exact List.mem_append.mpr (Or.inl h2)
        have ih := buildLoop_names sid (q ++ c.replies) _ _ _ _ h x hmem
        rcases List.mem_cons.mp ih with h2 | h2
        · exact List.mem_cons.mpr (Or.inl h2)
        rcases List.mem_append.mp h2 with h3 | h3
        · rw [List.map_append] at h3
          rcases List.mem_append.mp h3 with h4 | h4
          · exact List.mem_cons.mpr (Or.inr (List.mem_append.mpr (Or.inl h4)))
          · have h5 : x.fields.parent_id = "t1_" ++ c.fields.id := by
              simpa [edgeOf] using h4
            refine List.mem_cons.mpr (Or.inr (List.mem_append.mpr (Or.inr ?_)))
            rw [h5]
            exact List.mem_map.mpr ⟨c, mem_allL_of_mem (List.mem_cons_self c q), rfl⟩
        · obtain ⟨y, hy, hyy⟩ := List.mem_map.mp h3
          refine List.mem_cons.mpr (Or.inr (List.mem_append.mpr (Or.inr ?_)))
          refine List.mem_map.mpr ⟨y, ?_, hyy⟩
          rw [allL_append] at hy
          rw [allL_cons]
          rcases List.mem_append.mp hy with h4 | h4
          · exact List.mem_cons_of_mem _ (List.mem_append.mpr (Or.inr h4))
          · exact List.mem_cons_of_mem _ (List.mem_append.mpr (Or.inl h4))
    · rw [show buildLoop sid (c :: q) idx forest = .error c.fields.parent_id from by
        simp [buildLoop, hin]] at h
      cases h
termination_by q => lsize q
decreasing_by simp [lsize_append, lsize_cons]; omega

/-- Sample comment attributes for concrete instances. -/
def sampleFields (i p : String) : CFields :=
  ⟨i, p, some "alice", some "hello", none, false, "/r/test/c/", false, 3, 1000⟩

/-- A sample comment with given id, declared parent and replies. -/
def mkC (i p : String) (rs : List RComment) : RComment := .mk (sampleFields i p) rs

/-- C4: on a successful reconstruction every fetched comment has a node
attached exactly under its declared parent (never silently dropped, never
reattached to the root), and when some comment declares a parent that is
neither the root nor any comment node name, reconstruction raises the
KeyError of line 145 (modelled as Except.error) instead of returning a
tree. -/
theorem c4_missing_parent_fatal :
    (∀ (sid : String) (top : List RComment) idx forest,
      download_submission sid top = .ok (idx, forest) →
      ∀ c ∈ allL top, edgeOf c ∈ idx) ∧
    (∀ (sid : String) (top : List RComment),
      (∃ c ∈ allL top, c.fields.parent_id ∉ ("t3_" ++ sid) ::
        (allL top).map (fun x => "t1_" ++ x.fields.id)) →
      ∃ e, download_submission sid top = Except.error e) := by
  constructor
  · intro sid top idx forest h c hc
    exact buildLoop_complete sid top [] [] idx forest h c hc
  · rintro sid top ⟨c, hc, hnot⟩
    cases hres : download_submission sid top with
    | error e => exact ⟨e, rfl⟩
    | ok pr =>
      obtain ⟨idx2, f2⟩ := pr
      have h2 := buildLoop_names sid top [] [] idx2 f2 hres c hc
      simp only [List.map_nil, List.nil_append] at h2
      exact absurd h2 hnot

theorem c4_missing_parent_fatal_witness :
    (edgeOf (mkC "aa" "t3_x" [mkC "bb" "t1_aa" []])
      ∈ [("t1_aa", "t3_x"), ("t1_bb", "t1_aa")]) ∧
    (∃ e, download_submission "x" [mkC "aa" "t1_zz" []] = Except.error e) := by
  constructor
  · refine c4_missing_parent_fatal.1 "x" [mkC "aa" "t3_x" [mkC "bb" "t1_aa" []]]
      [("t1_aa", "t3_x"), ("t1_bb", "t1_aa")]
      [("t1_aa", recOf (mkC "aa" "t3_x" [mkC "bb" "t1_aa" []])),
       ("t1_bb", recOf (mkC "bb" "t1_aa" []))] ?_ _ ?_
    · simp [download_submission, buildLoop, bfsFlatten, mkC, sampleFields,
        RComment.fields, RComment.replies, edgeOf]
    · simp [allL, mkC]
  · refine c4_missing_parent_fatal.2 "x" _ ⟨mkC "aa" "t1_zz" [], ?_, ?_⟩
    · simp [allL, mkC]
    · simp [allL, mkC, sampleFields, RComment.fields]

/-! ### Depth of reconstructed nodes -/

theorem find_eq_of_nodup_keys (idx : List (String × String))
    (hn : (idx.map Prod.fst).Nodup) (e : String × String) (he : e ∈ idx) :
    idx.find? (fun x => x.1 == e.1) = some e := by
  induction idx with
  | nil => simp at he
  | cons h t ih =>
    rcases List.mem_cons.mp he with h1 | h1
    · subst h1
      simp [List.find?]
    · have hne : (h.1 == e.1) = false := by
        rw [List.map_cons, List.nodup_cons] at hn
        refine beq_eq_false_iff_ne.mpr fun hc => hn.1 ?_
        rw [hc]
        exact List.mem_map.mpr ⟨e, h1, rfl⟩
      rw [List.find?]
      rw [hne]
      exact ih (by rw [List.map_cons, List.nodup_cons] at hn; exact hn.2) h1

theorem depthIn_mono (idx : List (String × String)) (root : String) :
    ∀ f n d, depthIn idx root f n = some d → depthIn idx root (f + 1) n = some d := by
  intro f
  induction f with
  | zero => intro n d h; simp [depthIn] at h
  | succ f ih =>
    intro n d h
    rw [depthIn] at h
    rw [depthIn]
    by_cases hr : n = root
    · simpa [hr] using h
    rw [if_neg hr] at h ⊢
    cases hf : idx.find? (fun e => e.1 == n) with
    | none => rw [hf] at h; cases h
    | some e =>
      rw [hf] at h
      simp only [Option.some_bind] at h ⊢
      obtain ⟨d2, hd2, hd⟩ := Option.map_eq_some'.mp h
      rw [ih e.2 d2 hd2]
      simp [hd]

theorem depthIn_mono_le (idx : List (String × String)) (root : String)
    {f g : Nat} (hfg : f ≤ g) :
    ∀ {n d}, depthIn idx root f n = some d → depthIn idx root g n = some d := by
  induction hfg with
  | refl => intro n d h; exact h
  | step _ ih => intro n d h; exact depthIn_mono idx root _ n d (ih h)

theorem depthIn_root (idx : List (String × String)) (root : String) (f : Nat) :
    depthIn idx root (f + 1) root = some 0 := by
  simp [depthIn]

theorem depthIn_step (idx : List (String × String)) (root : String)
    (hn : (idx.map Prod.fst).Nodup) (e : String × String) (he : e ∈ idx)
    (hroot : e.1 ≠ root) (f d : Nat) (hp : depthIn idx root f e.2 = some d) :
    depthIn idx root (f + 1) e.1 = some (d + 1) := by
  rw [depthIn, if_neg hroot, find_eq_of_nodup_keys idx hn e he]
  simp only [Option.some_bind]
  rw [hp]
  rfl

/-- In a parent-consistent forest whose comment nodes are all recorded in
idx, every comment name reaches the root through the recorded parents,
one step deeper than its declared parent. -/
theorem depth_forest (idx : List (String × String)) (root : String)
    (hn : (idx.map Prod.fst).Nodup) :
    ∀ (q : List RComment), (∀ c ∈ allL q, edgeOf c ∈ idx) →
      (∀ c ∈ allL q, "t1_" ++ c.fields.id ≠ root) →
      wfL q = true →
      ∀ (P : String) (dP f0 : Nat), (∀ c ∈ q, c.fields.parent_id = P) →
        depthIn idx root f0 P = some dP →
        ∀ x ∈ allL q, ∃ f d,
          depthIn idx root f ("t1_" ++ x.fields.id) = some (d + 1) ∧
          depthIn idx root f (x.fields.parent_id) = some d
  | [] => by intro _ _ _ P dP f0 _ _ x hx; simp [allL] at hx
  | c :: q => by
    intro hidx hnr hw P dP f0 htop hdP x hx
    rw [wfL_cons] at hw
    simp only [Bool.and_eq_true, List.all_eq_true] at hw
    obtain ⟨⟨hrepl, hwrepl⟩, hwq⟩ := hw
    have hcP : c.fields.parent_id = P := htop c (List.mem_cons_self c q)
    have hcmem : c ∈ allL (c :: q) := mem_allL_of_mem (List.mem_cons_self c q)
    have hcedge : edgeOf c ∈ idx := hidx c hcmem
    have hcroot : "t1_" ++ c.fields.id ≠ root := hnr c hcmem
    have hcd : depthIn idx root (f0 + 1) ("t1_" ++ c.fields.id) = some (dP + 1) := by
      have := depthIn_step idx root hn (edgeOf c) hcedge hcroot f0 dP
        (by rw [show (edgeOf c).2 = c.fields.parent_id from rfl, hcP]; exact hdP)
      exact this
    have hmem1 : ∀ y, y ∈ allL c.replies → y ∈ allL (c :: q) := by
      intro y hy
      rw [allL_cons]
      exact List.mem_cons_of_mem _ (List.mem_append.mpr (Or.inl hy))
    have hmem2 : ∀ y, y ∈ allL q → y ∈ allL (c :: q) := by
      intro y hy
      rw [allL_cons]
      exact List.mem_cons_of_mem _ (List.mem_append.mpr (Or.inr hy))
    rw [allL_cons] at hx
    rcases List.mem_cons.mp hx with h1 | h1
    · subst h1
      refine ⟨f0 + 1, dP, hcd, ?_⟩
      rw [hcP]
      exact depthIn_mono idx root f0 P dP hdP
    rcases List.mem_append.mp h1 with h2 | h2
    · exact depth_forest idx root hn c.replies
        (fun y hy => hidx y (hmem1 y hy)) (fun y hy => hnr y (hmem1 y hy)) hwrepl
        ("t1_" ++ c.fields.id) (dP + 1) (f0 + 1)
        (fun y hy => by simpa using hrepl y hy) hcd x h2
    · exact depth_forest idx root hn q
        (fun y hy => hidx y (hmem2 y hy)) (fun y hy => hnr y (hmem2 y hy)) hwq
        P dP f0 (fun y hy => htop y (List.mem_cons_of_mem c hy)) hdP x h2
termination_by q => lsize q
decreasing_by all_goals (simp [lsize_append, lsize_cons] <;> omega)

theorem mem_idx_of_mem_allL (top : List RComment) {c : RComment} (hc : c ∈ allL top) :
    edgeOf c ∈ (bfsFlatten top).map edgeOf :=
  List.mem_map.mpr ⟨c, ((bfsFlatten_perm top).symm.mem_iff).mp hc, rfl⟩

theorem idx_keys_eq (top : List RComment) :
    ((bfsFlatten top).map edgeOf).map Prod.fst
      = (bfsFlatten top).map (fun c => "t1_" ++ c.fields.id) := by
  rw [List.map_map]; rfl

theorem idx_keys_nodup (top : List RComment)
    (hnd : ((allL top).map (fun c => c.fields.id)).Nodup) :
    (((bfsFlatten top).map edgeOf).map Prod.fst).Nodup := by
  rw [idx_keys_eq]
  have h1 : (allL top).map (fun c => "t1_" ++ c.fields.id)
      = ((allL top).map (fun c => c.fields.id)).map (fun s => "t1_" ++ s) := by
    rw [List.map_map]; rfl
  have h2 : ((allL top).map (fun c => "t1_" ++ c.fields.id)).Nodup := by
    rw [h1]
    exact hnd.map fun a b h => t1_inj h
  exact ((bfsFlatten_perm top).map (fun c => "t1_" ++ c.fields.id)).symm.nodup h2

/-- C3 (amended): for a parent-consistent fetched forest with distinct
comment ids, reconstruction succeeds; the tree has one node per comment
plus the root; every comment has exactly one node, attached under its
declared parent; the node names of the top-level comments, and of the
replies of every comment, occur in the index in the platform order; a
node declares parent p only if it is one of the direct replies of p; and
every recorded node sits one level deeper than its declared parent, the
root being at depth 0. -/
theorem c3_tree_reconstruction (sid : String) (top : List RComment)
    (hwf : wfTop sid top = true)
    (hnd : ((allL top).map (fun c => c.fields.id)).Nodup) :
    ∃ idx forest,
      download_submission sid top = Except.ok (idx, forest) ∧
      idx.length = (allL top).length ∧
      (∀ c ∈ allL top, edgeOf c ∈ idx ∧
        (idx.filter (fun e => e.1 == "t1_" ++ c.fields.id)).length = 1) ∧
      (∀ e ∈ idx, ∃ c ∈ allL top, e = edgeOf c) ∧
      (top.map (fun c => "t1_" ++ c.fields.id)).Sublist (idx.map Prod.fst) ∧
      (∀ p ∈ allL top,
        (p.replies.map (fun c => "t1_" ++ c.fields.id)).Sublist (idx.map Prod.fst)) ∧
      (∀ p ∈ allL top, ∀ x ∈ allL top,
        x.fields.parent_id = "t1_" ++ p.fields.id → x ∈ p.replies) ∧
      (∀ e ∈ idx, ∃ f d,
        depthIn idx ("t3_" ++ sid) f ("t3_" ++ sid) = some 0 ∧
        depthIn idx ("t3_" ++ sid) f e.1 = some (d + 1) ∧
        depthIn idx ("t3_" ++ sid) f e.2 = some d) := by
  have hwf2 := hwf
  unfold wfTop at hwf2
  simp only [Bool.and_eq_true, List.all_eq_true] at hwf2
  obtain ⟨htops, hwL⟩ := hwf2
  have hok := buildLoop_ok sid top [] []
    (fun c hc => by simpa using (by simpa using htops c hc : c.fields.parent_id = "t3_" ++ sid))
    hwL
  refine ⟨(bfsFlatten top).map edgeOf,
    (bfsFlatten top).map (fun c => ("t1_" ++ c.fields.id, recOf c)), by simpa using hok,
    ?_, ?_, ?_, ?_, ?_, ?_, ?_⟩
  · rw [List.length_map]
    exact (bfsFlatten_perm top).length_eq
  · intro c hc
    refine ⟨mem_idx_of_mem_allL top hc, ?_⟩
    rw [List.filter_map, List.length_map, ← List.countP_eq_length_filter]
    have hcongr : ∀ x ∈ bfsFlatten top,
        ((((fun e : String × String => e.1 == "t1_" ++ c.fields.id) ∘ edgeOf) x) = true
          ↔ (x.fields.id == c.fields.id) = true) := by
      intro x _
      show (("t1_" ++ x.fields.id) == ("t1_" ++ c.fields.id)) = true
        ↔ (x.fields.id == c.fields.id) = true
      simp only [beq_iff_eq]
      exact ⟨fun h => t1_inj h, fun h => by rw [h]⟩
    rw [List.countP_congr hcongr, (bfsFlatten_perm top).countP_eq]
    have hmem : c.fields.id ∈ (allL top).map (fun c => c.fields.id) :=
      List.mem_map.mpr ⟨c, hc, rfl⟩
    have := List.count_eq_one_of_mem hnd hmem
    rw [List.count_eq_countP, List.countP_map] at this
    exact this
  · intro e he
    obtain ⟨c, hc, hce⟩ := List.mem_map.mp he
    exact ⟨c, ((bfsFlatten_perm top).mem_iff).mp hc, hce.symm⟩
  · rw [idx_keys_eq]
    have h1 : bfsFlatten top = top ++ bfsFlatten (childQueue top) := bfsFlatten_level top
    rw [h1, List.map_append]
    exact List.sublist_append_left _ _
  · intro p hp
    rw [idx_keys_eq]
    exact (replies_sublist_bfs top p hp).map _
  · exact child_mem_replies sid top hwf hnd
  · intro e he
    obtain ⟨c, hc, hce⟩ := List.mem_map.mp he
    have hcall : c ∈ allL top := (bfsFlatten_perm top).mem_iff.mp hc
    have hkeys := idx_keys_nodup top hnd
    have hdepth := depth_forest ((bfsFlatten top).map edgeOf) ("t3_" ++ sid) hkeys top
      (fun y hy => mem_idx_of_mem_allL top hy)
      (fun y _ => (t3_ne_t1 sid y.fields.id).symm)
      hwL ("t3_" ++ sid) 0 1
      (fun y hy => by simpa using htops y hy)
      (depthIn_root _ _ 0) c hcall
    obtain ⟨f, d, hown, hpar⟩ := hdepth
    refine ⟨f + 1, d, depthIn_root _ _ f, ?_, ?_⟩
    · rw [← hce]
      exact depthIn_mono _ _ f _ _ hown
    · rw [← hce]
      exact depthIn_mono _ _ f _ _ hpar
/-- C3 counterexample forest. -/
def badTop : List RComment := [mkC "aa" "t1_bb" [], mkC "bb" "t3_x" []]

theorem c3_counterexample :
    (∀ c ∈ allL badTop,
      c.fields.parent_id = "t3_x" ∨
        ∃ y ∈ allL badTop, c.fields.parent_id = "t1_" ++ y.fields.id) ∧
    download_submission "x" badTop = Except.error "t1_bb" := by
  constructor
  · intro c hc
    simp [badTop, mkC, allL] at hc
    rcases hc with h | h
    · subst h
      refine Or.inr ⟨mkC "bb" "t3_x" [], ?_, ?_⟩
      · simp [badTop, mkC, allL]
      · decide
    · subst h
      exact Or.inl (by decide)
  · simp [download_submission, buildLoop, badTop, mkC, sampleFields, RComment.fields,
      RComment.replies]

/-- C3 witness forest. -/
def goodTop : List RComment := [mkC "aa" "t3_x" [mkC "bb" "t1_aa" []], mkC "cc" "t3_x" []]

theorem c3_tree_reconstruction_witness :
    ∃ idx forest, download_submission "x" goodTop = Except.ok (idx, forest) ∧
      idx.length = (allL goodTop).length := by
  obtain ⟨idx, forest, h1, h2, _⟩ := c3_tree_reconstruction "x" goodTop
    (by simp [wfTop, wfL, goodTop, mkC, sampleFields, RComment.fields, RComment.replies])
    (by
      have : (allL goodTop).map (fun c => c.fields.id) = ["aa", "bb", "cc"] := by
        simp [allL, goodTop, mkC, sampleFields, RComment.fields, RComment.replies]
      rw [this]
      decide)
  exact ⟨idx, forest, h1, h2⟩

/-! ## Depth-aware rendering: generate_html (RedditArchiver.py, lines 152-222)

The renderer walks the reconstructed tree in pre-order (anytree
PreOrderIter), skipping the synthetic root (any node whose name starts
with "t3"), and appends pieces to html_comments.  Appended pieces are
modelled as a list: a closing marker (the literal div-closing tag), an
opening div with its computed class string and id, or the content block
(header plus converted body).  markdown2.markdown and strftime with the
configured date format are abstracted as the parameters conv and fmt. -/

/-- Python str.replace semantics on char lists: replace the leftmost
occurrences of pat, left to right, never rescanning replaced output.
The fuel argument makes the recursion structural; each step consumes at
least one input character, so fuel equal to the input length (as
replaceStr passes) never runs out.  The nonempty-pattern guard keeps the
function total; every use has a nonempty pattern. -/
def replA (pat repl : List Char) : Nat → List Char → List Char
  | 0, l => l
  | _ + 1, [] => []
  | fuel + 1, c :: rest =>
    if pat.isPrefixOf (c :: rest) && !pat.isEmpty then
      repl ++ replA pat repl fuel ((c :: rest).drop pat.length)
    else c :: replA pat repl fuel rest

def replaceStr (pat repl : List Char) (l : List Char) : List Char :=
  replA pat repl l.length l

/-- comment_parser (lines 93-112); the name comment_parse is used in this
development.  The two character escapes of lines 98-99 commute into one
pass because neither replacement text contains a character the other
replaces; markdown2.markdown (line 102) is the abstract parameter conv;
lines 105-106 turn paragraph breaks into closing/opening markers and
newlines into break tags; lines 109-110 trim one trailing break tag,
matching text[-4:] on strings shorter than four characters never being
equal to the tag. -/
def comment_parse (conv : List Char → List Char) (initial_text : String) : String :=
  let t1 := initial_text.data.flatMap fun c =>
    if c = '<' then "&lt;".data else if c = '>' then "&gt;".data else [c]
  let t2 := conv t1
  let t3 := replaceStr "\n\n".data "</p><p>".data t2
  let t4 := replaceStr "\n".data "<br>".data t3
  let t5 := if "<br>".data.isSuffixOf t4 then t4.take (t4.length - 4) else t4
  String.mk t5

/-- A node of the anytree structure: a name and ordered children. -/
inductive RTree where
  | mk (name : String) (children : List RTree)

def RTree.name : RTree → String
  | .mk n _ => n

/-- Pre-order traversal (PreOrderIter) of a forest of subtrees rooted at
depth d, yielding each node's name with its depth. -/
def preDL : Nat → List RTree → List (String × Nat)
  | _, [] => []
  | d, .mk n cs :: rest => (n, d) :: (preDL (d + 1) cs ++ preDL d rest)

/-- One fragment appended to html_comments. -/
inductive Piece where
  | close
  | openDiv (classes id : String)
  | content (s : String)

def isClose : Piece → Bool
  | .close => true
  | _ => false

/-- Classify a piece (0 closing marker, 1 opening div, 2 content block). -/
def pieceKind : Piece → Nat
  | .close => 0
  | .openDiv _ _ => 1
  | .content _ => 2

def countCloses (l : List Piece) : Nat := l.countP isClose

/-- Lines 194-203: the style class of a node, chosen in priority order
admin, moderator, submitter, then alternation by depth parity. -/
def styleTag (d : Option String) (o : Bool) (level : Nat) : String :=
  if d = some "admin" then "a "
  else if d = some "moderator" then "m "
  else if o then "p "
  else if level % 2 = 0 then "e "
  else "o "

/-- Lines 188-206: the full class string: first-level margin class, style
class, and the level class built from str(level)[-1], the last decimal
digit of the level, which is level mod 10. -/
def classesOf (d : Option String) (o : Bool) (level : Nat) : String :=
  (if level = 1 then "f " else "") ++ styleTag d o level ++ "l" ++ toString (level % 10)

/-- Lines 209-213: the header line and converted body of one comment. -/
def contentOf (rec : CommentData) (fmt : Nat → String) (conv : List Char → List Char) :
    String :=
  "<header>" ++ rec.a ++ ", on " ++ fmt rec.t ++ " (" ++ toString rec.s ++
    (if rec.e then ", edited" else "") ++ ")</header>" ++ comment_parse conv rec.b

/-- Lines 168-216: the traversal loop.  The state prev is
previous_comment_level, initialized to 1 on line 169; a node whose name
starts with "t3" is skipped without touching the state (lines 177-178);
otherwise, when the current depth is at most prev, the loop emits
prev - depth + 1 closing markers (lines 183-185), then one opening div
with the computed classes (lines 187-207) and the content block
(lines 209-213), and prev becomes the current depth (line 215).  The
comment counter of lines 170 and 216 is write-only and omitted.  The
forest lookup is total here; the pipeline only ever visits names that
download_submission recorded. -/
def renderLoop (forest : String → CommentData) (fmt : Nat → String)
    (conv : List Char → List Char) : List (String × Nat) → Nat → List Piece
  | [], _ => []
  | (name, d) :: rest, prev =>
    if name.data.take 2 = "t3".data then renderLoop forest fmt conv rest prev
    else
      (if d ≤ prev then List.replicate (prev - d + 1) Piece.close else []) ++
        (Piece.openDiv (classesOf (forest name).d (forest name).o d) name ::
         Piece.content (contentOf (forest name) fmt conv) ::
         renderLoop forest fmt conv rest d)

/-- The renderer algorithm as the spec states it in section 4.3, over the
sequence of real (non-root) visited nodes, with previous depth an
explicit parameter so it can be initialized to the depth of the first
visited node: step 1 emits previous - current + 1 closing markers when
the current depth is at most the previous depth, steps 2-4 open the
styled boundary and emit the content block, step 5 updates the previous
depth.  Stated for comparison with renderLoop. -/
def specRender (forest : String → CommentData) (fmt : Nat → String)
    (conv : List Char → List Char) : List (String × Nat) → Nat → List Piece
  | [], _ => []
  | (name, d) :: rest, prev =>
    (if d ≤ prev then List.replicate (prev - d + 1) Piece.close else []) ++
      (Piece.openDiv (classesOf (forest name).d (forest name).o d) name ::
       Piece.content (contentOf (forest name) fmt conv) ::
       specRender forest fmt conv rest d)

/-- The spec's per-node closing-marker count (section 4.3, step 1). -/
def specCloseCount (prev d : Nat) : Nat := if d ≤ prev then prev - d + 1 else 0

/-- Sum of the spec's per-node counts along a depth sequence. -/
def specTotal : Nat → List Nat → Nat
  | _, [] => 0
  | prev, d :: ds => specCloseCount prev d + specTotal d ds

/-- No node of these subtrees carries a root-like name. -/
def noT3 : List RTree → Bool
  | [] => true
  | .mk n cs :: rest => !(n.data.take 2 == "t3".data) && noT3 cs && noT3 rest
theorem renderLoop_eq_spec (forest : String → CommentData) (fmt : Nat → String)
    (conv : List Char → List Char) :
    ∀ (visits : List (String × Nat)) (prev : Nat),
      (∀ v ∈ visits, ¬(v.1.data.take 2 = "t3".data)) →
      renderLoop forest fmt conv visits prev = specRender forest fmt conv visits prev := by
  intro visits
  induction visits with
  | nil => intro prev _; simp [renderLoop, specRender]
  | cons v rest ih =>
    intro prev h
    obtain ⟨name, d⟩ := v
    have hv : ¬(name.data.take 2 = "t3".data) := h (name, d) (List.mem_cons_self _ _)
    simp only [renderLoop, specRender, if_neg hv]
    rw [ih d fun x hx => h x (List.mem_cons_of_mem _ hx)]

theorem preDL_noT3 : ∀ (d : Nat) (cs : List RTree), noT3 cs = true →
    ∀ v ∈ preDL d cs, ¬(v.1.data.take 2 = "t3".data)
  | _, [] => by intro _ v hv; simp [preDL] at hv
  | d, .mk n c :: rest => by
    intro hn v hv
    simp only [noT3, Bool.and_eq_true, Bool.not_eq_true'] at hn
    obtain ⟨⟨hname, hc⟩, hrest⟩ := hn
    simp only [preDL, List.mem_cons, List.mem_append] at hv
    rcases hv with h | h | h
    · subst h
      simpa using hname
    · exact preDL_noT3 (d + 1) c hc v h
    · exact preDL_noT3 d rest hrest v h

/-- C1: with previous depth initialized to the depth of the first real
(non-root) node, which pre-order necessarily visits at depth 1, the loop
emits, for every visited node, exactly previous - current + 1 closing
markers when the current depth is at most the previous depth and none
otherwise, then the opening div and the content block, and updates the
previous depth to the current depth: the code loop (initialized to 1,
skipping the root) coincides with the spec algorithm over the real
visit sequence. -/
theorem c1_renderer_depth_closing (sid : String) (cs : List RTree)
    (forest : String → CommentData) (fmt : Nat → String) (conv : List Char → List Char)
    (hne : cs ≠ []) (hn : noT3 cs = true) :
    (preDL 1 cs).head?.map Prod.snd = some 1 ∧
    renderLoop forest fmt conv (preDL 0 [RTree.mk ("t3_" ++ sid) cs]) 1
      = specRender forest fmt conv (preDL 1 cs) 1 := by
  constructor
  · rcases cs with _ | ⟨⟨n, ccs⟩, rest⟩
    · exact absurd rfl hne
    · simp [preDL]
  · have hroot : ("t3_" ++ sid).data.take 2 = "t3".data := by
      rw [String.data_append]; rfl
    rw [show preDL 0 [RTree.mk ("t3_" ++ sid) cs]
        = ("t3_" ++ sid, 0) :: (preDL 1 cs ++ preDL 0 []) from by simp [preDL]]
    rw [show preDL 0 ([] : List RTree) = [] from by simp [preDL], List.append_nil]
    rw [show renderLoop forest fmt conv (("t3_" ++ sid, 0) :: preDL 1 cs) 1
        = renderLoop forest fmt conv (preDL 1 cs) 1 from by
      simp only [renderLoop, if_pos hroot]]
    exact renderLoop_eq_spec forest fmt conv (preDL 1 cs) 1 (preDL_noT3 1 cs hn)

theorem c1_renderer_depth_closing_witness :
    ((preDL 1 [RTree.mk "t1_a" []]).head?.map Prod.snd = some 1) ∧
    renderLoop (fun _ => ⟨"u", "b", none, false, "/l", false, 1, 0⟩) (fun _ => "T") id
        (preDL 0 [RTree.mk "t3_x" [RTree.mk "t1_a" []]]) 1
      = specRender (fun _ => ⟨"u", "b", none, false, "/l", false, 1, 0⟩) (fun _ => "T") id
        (preDL 1 [RTree.mk "t1_a" []]) 1 := by
  have h := c1_renderer_depth_closing "x" [RTree.mk "t1_a" []]
    (fun _ => ⟨"u", "b", none, false, "/l", false, 1, 0⟩) (fun _ => "T") id
    (by simp) (by simp [noT3])
  exact h
/-- A flat thread: three top-level comments, no replies. -/
def flat3 : RTree :=
  RTree.mk "t3_x" [RTree.mk "t1_a" [], RTree.mk "t1_b" [], RTree.mk "t1_c" []]

/-- A fixed forest record for rendering fixtures. -/
def fixRec : CommentData := ⟨"u", "b", none, false, "/l", false, 1, 0⟩

theorem c2_counterexample :
    countCloses (renderLoop (fun _ => fixRec) (fun _ => "T") id (preDL 0 [flat3]) 1) = 3 ∧
    countCloses (renderLoop (fun _ => fixRec) (fun _ => "T") id (preDL 0 [flat3]) 1) ≠ 2 ∧
    (renderLoop (fun _ => fixRec) (fun _ => "T") id (preDL 0 [flat3]) 1).head?
      = some Piece.close := by
  refine ⟨?_, ?_, ?_⟩ <;>
    simp [flat3, preDL, renderLoop, countCloses, isClose, List.countP_cons, fixRec]

/-- C2 (amended): for the flat thread of three top-level comments the loop
emits exactly three closing markers, one immediately before each of the
three comments, including a spurious one before the first comment (the
previous depth starts at 1 and the first comment is at depth 1); the
output is close, open, content repeated three times. -/
theorem c2_flat_thread_closes :
    (renderLoop (fun _ => fixRec) (fun _ => "T") id (preDL 0 [flat3]) 1).map pieceKind
      = [0, 1, 2, 0, 1, 2, 0, 1, 2] := by
  simp [flat3, preDL, renderLoop, pieceKind, fixRec]

theorem getLast?_cons_ne {α : Type} (a : α) {l : List α} (h : l ≠ []) :
    (a :: l).getLast? = l.getLast? := by
  cases l with
  | nil => exact absurd rfl h
  | cons b t => rfl

theorem countCloses_append (a b : List Piece) :
    countCloses (a ++ b) = countCloses a + countCloses b := by
  simp [countCloses, List.countP_append]

theorem countCloses_openDiv (cl i : String) (l : List Piece) :
    countCloses (Piece.openDiv cl i :: l) = countCloses l := by
  simp [countCloses, List.countP_cons, isClose]

theorem countCloses_content (s : String) (l : List Piece) :
    countCloses (Piece.content s :: l) = countCloses l := by
  simp [countCloses, List.countP_cons, isClose]

/-- C5: the total number of closing markers is exactly the sum of the
per-node counts driven by consecutive depth comparisons over the real
(non-root) visits, and after the last visited node no further closing
marker is emitted: the output ends with that node's content block, so
the document may end with unclosed boundaries. -/
theorem c5_no_final_flush (forest : String → CommentData) (fmt : Nat → String)
    (conv : List Char → List Char) :
    (∀ (visits : List (String × Nat)) (prev : Nat),
      countCloses (renderLoop forest fmt conv visits prev)
        = specTotal prev
            ((visits.filter fun v => !(v.1.data.take 2 == "t3".data)).map Prod.snd)) ∧
    (∀ (visits : List (String × Nat)) (prev : Nat), visits ≠ [] →
      (∀ v ∈ visits, ¬(v.1.data.take 2 = "t3".data)) →
      ∃ s, (renderLoop forest fmt conv visits prev).getLast? = some (Piece.content s)) := by
  constructor
  · intro visits
    induction visits with
    | nil => intro prev; simp [renderLoop, specTotal, countCloses]
    | cons v rest ih =>
      intro prev
      obtain ⟨name, d⟩ := v
      by_cases h : name.data.take 2 = "t3".data
      · rw [show renderLoop forest fmt conv ((name, d) :: rest) prev
            = renderLoop forest fmt conv rest prev from by simp [renderLoop, h],
          ih prev]
        congr 1
        simp [List.filter_cons, h]
      · rw [show renderLoop forest fmt conv ((name, d) :: rest) prev
            = (if d ≤ prev then List.replicate (prev - d + 1) Piece.close else []) ++
              (Piece.openDiv (classesOf (forest name).d (forest name).o d) name ::
               Piece.content (contentOf (forest name) fmt conv) ::
               renderLoop forest fmt conv rest d) from by simp [renderLoop, h]]
        rw [show (((name, d) :: rest).filter fun v => !(v.1.data.take 2 == "t3".data))
            = (name, d) :: (rest.filter fun v => !(v.1.data.take 2 == "t3".data)) from by
          simp [List.filter_cons, h]]
        rw [List.map_cons]
        rw [show specTotal prev (d :: ((rest.filter fun v =>
              !(v.1.data.take 2 == "t3".data)).map Prod.snd))
            = specCloseCount prev d + specTotal d ((rest.filter fun v =>
              !(v.1.data.take 2 == "t3".data)).map Prod.snd) from rfl]
        rw [← ih d, countCloses_append, countCloses_openDiv, countCloses_content]
        congr 1
        by_cases hd : d ≤ prev <;>
          simp [hd, specCloseCount, countCloses, List.countP_replicate, isClose]
  · intro visits
    induction visits with
    | nil => intro prev h; exact absurd rfl h
    | cons v rest ih =>
      intro prev _ hall
      obtain ⟨name, d⟩ := v
      have hv : ¬(name.data.take 2 = "t3".data) := hall (name, d) (List.mem_cons_self _ _)
      rw [show renderLoop forest fmt conv ((name, d) :: rest) prev
          = (if d ≤ prev then List.replicate (prev - d + 1) Piece.close else []) ++
            (Piece.openDiv (classesOf (forest name).d (forest name).o d) name ::
             Piece.content (contentOf (forest name) fmt conv) ::
             renderLoop forest fmt conv rest d) from by simp [renderLoop, hv]]
      rcases List.eq_nil_or_concat rest with hrest | _
      case inl =>
        subst hrest
        refine ⟨contentOf (forest name) fmt conv, ?_⟩
        rw [show renderLoop forest fmt conv [] d = [] from by simp [renderLoop]]
        simp [List.getLast?_append]
      case inr =>
        by_cases hrest : rest = []
        · subst hrest
          refine ⟨contentOf (forest name) fmt conv, ?_⟩
          rw [show renderLoop forest fmt conv [] d = [] from by simp [renderLoop]]
          simp [List.getLast?_append]
        · obtain ⟨s, hs⟩ := ih d hrest fun x hx => hall x (List.mem_cons_of_mem _ hx)
          refine ⟨s, ?_⟩
          have hneR : renderLoop forest fmt conv rest d ≠ [] := by
            intro hc
            rw [hc] at hs
            cases hs
          rw [List.getLast?_append, getLast?_cons_ne _ (by simp),
            getLast?_cons_ne _ hneR, hs]
          rfl

theorem c5_no_final_flush_witness :
    countCloses (renderLoop (fun _ => fixRec) (fun _ => "T") id
        [("t1_a", 1), ("t1_b", 2)] 1)
      = specTotal 1 [1, 2] ∧
    ∃ s, (renderLoop (fun _ => fixRec) (fun _ => "T") id
        [("t1_a", 1), ("t1_b", 2)] 1).getLast? = some (Piece.content s) := by
  constructor
  · have h := (c5_no_final_flush (fun _ => fixRec) (fun _ => "T") id).1
      [("t1_a", 1), ("t1_b", 2)] 1
    simpa using h
  · exact (c5_no_final_flush (fun _ => fixRec) (fun _ => "T") id).2
      [("t1_a", 1), ("t1_b", 2)] 1 (by simp) (by decide)

/-- C6: style classification is a pure function of distinguished-status,
submitter-flag and depth parity: two nodes agreeing on those three inputs
receive the same style tag, and the tag is chosen in priority order
admin, moderator, submitter, then even/odd depth alternation. -/
theorem c6_style_deterministic :
    (∀ (d d2 : Option String) (o o2 : Bool) (l l2 : Nat),
      d = d2 → o = o2 → l % 2 = l2 % 2 → styleTag d o l = styleTag d2 o2 l2) ∧
    (∀ o l, styleTag (some "admin") o l = "a ") ∧
    (∀ o l, styleTag (some "moderator") o l = "m ") ∧
    (∀ d l, d ≠ some "admin" → d ≠ some "moderator" → styleTag d true l = "p ") ∧
    (∀ d l, d ≠ some "admin" → d ≠ some "moderator" → l % 2 = 0 →
      styleTag d false l = "e ") ∧
    (∀ d l, d ≠ some "admin" → d ≠ some "moderator" → l % 2 = 1 →
      styleTag d false l = "o ") := by
  refine ⟨?_, ?_, ?_, ?_, ?_, ?_⟩
  · intro d d2 o o2 l l2 hd ho hl
    subst hd; subst ho
    unfold styleTag
    rw [hl]
  · intro o l; rfl
  · intro o l; rfl
  · intro d l h1 h2; simp [styleTag, h1, h2]
  · intro d l h1 h2 h3; simp [styleTag, h1, h2, h3]
  · intro d l h1 h2 h3; simp [styleTag, h1, h2, h3]

theorem c6_style_deterministic_witness :
    styleTag none false 2 = styleTag none false 4 ∧
    styleTag (some "admin") true 3 = "a " ∧
    styleTag (some "moderator") false 2 = "m " ∧
    styleTag none true 5 = "p " ∧
    styleTag (some "special") false 2 = "e " ∧
    styleTag none false 3 = "o " := by
  refine ⟨c6_style_deterministic.1 none none false false 2 4 rfl rfl (by decide),
    c6_style_deterministic.2.1 true 3,
    c6_style_deterministic.2.2.1 false 2,
    c6_style_deterministic.2.2.2.1 none 5 (by decide) (by decide),
    c6_style_deterministic.2.2.2.2.1 (some "special") 2 (by decide) (by decide) (by decide),
    c6_style_deterministic.2.2.2.2.2 none 3 (by decide) (by decide) (by decide)⟩
/-- A comment whose author has been deleted (praw author is None). -/
def cNone : RComment :=
  RComment.mk ⟨"aa", "t3_x", none, some "hi", none, false, "/p", false, 1, 5⟩ []

/-- A comment whose author is literally named "(deleted)". -/
def cDel : RComment :=
  RComment.mk ⟨"aa", "t3_x", some "(deleted)", some "hi", none, false, "/p", false, 1, 5⟩ []

theorem c9_counterexample :
    cNone.fields.author = none ∧
    cDel.fields.author = some "(deleted)" ∧
    cNone.fields.author ≠ cDel.fields.author ∧
    download_submission "x" [cNone] = download_submission "x" [cDel] := by
  refine ⟨rfl, rfl, by simp [cNone, cDel, RComment.fields], ?_⟩
  simp [download_submission, buildLoop, bfsFlatten, cNone, cDel, recOf,
    RComment.fields, RComment.replies, edgeOf]

/-- C9 (amended): the "(deleted)" substitution happens in the fetch step
itself (line 146): a null author or body is stored as the literal string
"(deleted)" in the comments_forest record, the nullability is not kept,
and the renderer then shows the stored string as-is, so the rendered
header for a deleted author still reads "(deleted)". -/
theorem c9_deleted_applied_at_fetch (c : RComment) (fmt : Nat → String)
    (conv : List Char → List Char) :
    (c.fields.author = none → (recOf c).a = "(deleted)") ∧
    (c.fields.body = none → (recOf c).b = "(deleted)") ∧
    (c.fields.author = none →
      ∃ s, contentOf (recOf c) fmt conv = "<header>(deleted), on " ++ s) := by
  refine ⟨?_, ?_, ?_⟩
  · intro h; simp [recOf, h]
  · intro h; simp [recOf, h]
  · intro h
    refine ⟨fmt (recOf c).t ++ " (" ++ toString (recOf c).s ++
      (if (recOf c).e then ", edited" else "") ++ ")</header>" ++
      comment_parse conv (recOf c).b, ?_⟩
    have ha : (recOf c).a = "(deleted)" := by simp [recOf, h]
    rw [contentOf, ha]
    apply String.ext
    simp [String.data_append, List.append_assoc]

theorem c9_deleted_applied_at_fetch_witness :
    (recOf cNone).a = "(deleted)" ∧
    ∃ s, contentOf (recOf cNone) (fun _ => "T") id = "<header>(deleted), on " ++ s := by
  have h := c9_deleted_applied_at_fetch cNone (fun _ => "T") id
  exact ⟨h.1 rfl, h.2.2 rfl⟩

/-! ## Document assembly: generate_html head, submission and first-post
blocks (lines 157-164, 218-222) and the surrounding pipeline -/

/-- The submission attributes generate_html reads.  upvote_percent models
the integer int(submission.upvote_ratio * 100); the floating-point ratio
itself stays outside the model. -/
structure Submission where
  subreddit : String
  title : String
  permalink : String
  selftext : String
  author : Option String
  num_comments : Nat
  score : Int
  upvote_percent : Int
  link_flair_text : Option String
  stickied : Bool
  spoiler : Bool
  over_18 : Bool
  is_original_content : Bool
  locked : Bool
  created_utc : Nat

/-- The 'No' if flag is False else 'Yes' rendering of line 161. -/
def yesNo (b : Bool) : String := if b then "Yes" else "No"

/-- The '(deleted)' if author is None else author.name rendering. -/
def delName : Option String → String
  | none => "(deleted)"
  | some n => n

/-- Line 158. -/
def html_head (sub : Submission) : String :=
  "<!doctype html><html><head><meta charset=\"utf-8\"/><title>" ++ sub.subreddit
    ++ " – " ++ sub.title ++ "</title></head><body>"

/-- Line 161; cfgRoot is config reddit root. -/
def html_submission (cfgRoot : String) (sub : Submission) (now_str sort : String) : String :=
  "<h1><a href=\"" ++ cfgRoot ++ "/r/" ++ sub.subreddit ++ "/\">/r/" ++ sub.subreddit
    ++ "</a> – <a href=\"" ++ cfgRoot ++ sub.permalink ++ "\">" ++ sub.title
    ++ "</a></h1><h2>Snapshot taken on " ++ now_str
    ++ "<br/>Posts: " ++ toString sub.num_comments
    ++ " – Score: " ++ toString sub.score
    ++ " (" ++ toString sub.upvote_percent ++ "% upvoted) – Flair: "
    ++ (match sub.link_flair_text with | none => "None" | some f => f)
    ++ " – Sorted by: " ++ sort
    ++ "<br/>Sticky: " ++ yesNo sub.stickied
    ++ " – Spoiler: " ++ yesNo sub.spoiler
    ++ " – NSFW: " ++ yesNo sub.over_18
    ++ " – OC: " ++ yesNo sub.is_original_content
    ++ " – Locked: " ++ yesNo sub.locked
    ++ "</h2><p><em>Snapshot taken from RedditPostDownloader v2.1.0. All times are UTC.</em></p>"

/-- Line 164. -/
def html_firstpost (cfgRoot : String) (fmt : Nat → String) (conv : List Char → List Char)
    (sub : Submission) (submission_id : String) : String :=
  "<h3>Original post</h3><div class=\"b p f l1\" id=\"t3_" ++ submission_id
    ++ "\"><header><a href=\"" ++ cfgRoot ++ "/u/" ++ delName sub.author ++ "\">"
    ++ delName sub.author ++ "</a>, on " ++ fmt sub.created_utc ++ "</header>"
    ++ comment_parse conv sub.selftext ++ "</div><h3>Comments</h3>"

/-- The text of one appended fragment of html_comments. -/
def pieceStr : Piece → String
  | .close => "</div>"
  | .openDiv cl i => "<div class=\"" ++ cl ++ "\" id=\"" ++ i ++ "\">"
  | .content s => s

def piecesStr (l : List Piece) : String := String.join (l.map pieceStr)

/-- Lines 220: the final sequential replacements, first removing every
occurrence of the opening paragraph tag, then of the closing one. -/
def stripTags (s : String) : String :=
  String.mk (replaceStr "</p>".data [] (replaceStr "<p>".data [] s.data))

/-- The assembled document before the strip of line 220. -/
def generate_html_raw (cfgRoot : String) (fmt : Nat → String)
    (conv : List Char → List Char) (sub : Submission)
    (submission_id now_str sort : String) (tree : RTree)
    (forest : String → CommentData) : String :=
  html_head sub ++ html_submission cfgRoot sub now_str sort ++
    html_firstpost cfgRoot fmt conv sub submission_id ++
    piecesStr (renderLoop forest fmt conv (preDL 0 [tree]) 1)

/-- generate_html (lines 152-222): assemble the four blocks and apply the
final replacements of line 220. -/
def generate_html (cfgRoot : String) (fmt : Nat → String)
    (conv : List Char → List Char) (sub : Submission)
    (submission_id now_str sort : String) (tree : RTree)
    (forest : String → CommentData) : String :=
  stripTags (html_head sub ++ html_submission cfgRoot sub now_str sort ++
    html_firstpost cfgRoot fmt conv sub submission_id ++
    piecesStr (renderLoop forest fmt conv (preDL 0 [tree]) 1))

/-- Substring test on char lists. -/
def hasInfix (pat : List Char) : List Char → Bool
  | [] => pat.isEmpty
  | c :: t => pat.isPrefixOf (c :: t) || hasInfix pat t
def evilSub : Submission :=
  ⟨"s", "<<p>p>", "", "", none, 0, 0, 0, none, false, false, false, false, false, 0⟩

set_option maxRecDepth 10000 in
theorem c10_counterexample :
    hasInfix "<p>".data (generate_html "" (fun _ => "") id evilSub "y" "" "None"
      (RTree.mk "t3_y" []) (fun _ => fixRec)).data = true := by decide

theorem replA_no_occurrence (pat repl : List Char) :
    ∀ (fuel : Nat) (l : List Char), hasInfix pat l = false → replA pat repl fuel l = l := by
  intro fuel
  induction fuel with
  | zero => intro l _; rfl
  | succ fuel ih =>
    intro l hl
    cases l with
    | nil => rfl
    | cons c rest =>
      rw [hasInfix] at hl
      simp only [Bool.or_eq_false_iff] at hl
      rw [replA, if_neg (by simp [hl.1])]
      rw [ih rest hl.2]

/-- C10 (amended): the returned document is the concatenated document with
every occurrence of the opening paragraph marker removed and then every
occurrence of the closing one removed, leftmost and non-overlapping; a
document containing no occurrence of a marker is left unchanged by that
replacement, but a removal can splice adjacent characters into a new
occurrence, so the returned document is not guaranteed to be free of the
markers. -/
theorem c10_strip_behaviour :
    (∀ (cfgRoot : String) (fmt : Nat → String) (conv : List Char → List Char)
       (sub : Submission) (sid now_str sort : String) (tree : RTree)
       (forest : String → CommentData),
      generate_html cfgRoot fmt conv sub sid now_str sort tree forest
        = stripTags (generate_html_raw cfgRoot fmt conv sub sid now_str sort tree forest)) ∧
    (∀ (pat repl l : List Char), pat ≠ [] → hasInfix pat l = false →
      replaceStr pat repl l = l) := by
  constructor
  · intro cfgRoot fmt conv sub sid now_str sort tree forest
    rfl
  · intro pat repl l _ hl
    exact replA_no_occurrence pat repl l.length l hl

theorem c10_strip_behaviour_witness :
    generate_html "" (fun _ => "") id evilSub "y" "" "None" (RTree.mk "t3_y" [])
        (fun _ => fixRec)
      = stripTags (generate_html_raw "" (fun _ => "") id evilSub "y" "" "None"
        (RTree.mk "t3_y" []) (fun _ => fixRec)) ∧
    replaceStr "<p>".data [] "abc".data = "abc".data := by
  refine ⟨c10_strip_behaviour.1 "" (fun _ => "") id evilSub "y" "" "None"
    (RTree.mk "t3_y" []) (fun _ => fixRec),
    c10_strip_behaviour.2 "<p>".data [] "abc".data (by decide) (by decide)⟩

/-! ## The per-thread pipeline: scrape_url (lines 274-309) and main
(lines 312-336)

The network is abstracted as a FetchOutcome: either the submission with
its fully expanded comment forest, or the praw NotFound / Forbidden
exception raised while getting the submission.  Python raising is
modelled by the PyResult constructors exn (an escaping exception) and
sysExit (raise SystemExit), and myprint output is collected in a list.
In the NotFound and Forbidden branches the except handlers of lines
291-294 only print; control then falls through to line 301, which
evaluates generate_html(submission, ...) although the local variable
submission was never assigned in this call, so Python raises
UnboundLocalError there; the RecursionError handler does not catch it
and it escapes scrape_url.  The model records that exception message.
RecursionError itself cannot occur in the total model.  write_file and
os.makedirs are external; the written filename is a parameter. -/

inductive FetchOutcome where
  | ok (sub : Submission) (top : List RComment)
  | notFound
  | forbidden

inductive PyResult where
  | ok (html : String)
  | sysExit (code : Nat)
  | exn (msg : String)

/-- The exception escaping from line 301 when the except branches of
lines 291-294 ran: the first unbound local read is submission. -/
def unboundMsg : String :=
  "UnboundLocalError: local variable submission referenced before assignment"

/-- Rebuild the anytree children structure from the recorded
(node name, parent name) pairs: the children of a node are the nodes that
declared it as parent, in creation order.  The fuel (number of edges)
bounds the tree depth when every edge's parent was created earlier. -/
def treeOfAux (edges : List (String × String)) : Nat → String → RTree
  | 0, n => RTree.mk n []
  | fuel + 1, n =>
    RTree.mk n (((edges.filter (fun e => e.2 == n)).map Prod.fst).map
      (treeOfAux edges fuel))

def treeOf (edges : List (String × String)) (root : String) : RTree :=
  treeOfAux edges edges.length root

/-- comments_forest as a lookup function; the renderer only reads keys the
download recorded, so the default value is never observable in the
pipeline. -/
def forestFun (forest : List (String × CommentData)) : String → CommentData :=
  fun n => (((forest.find? (fun e => e.1 == n)).map Prod.snd).getD
    ⟨"", "", none, false, "", false, 0, 0⟩)

/-- scrape_url (lines 274-309). -/
def scrape_url (fetch : FetchOutcome) (cfgRoot : String) (fmt : Nat → String)
    (conv : List Char → List Char) (now_str url : String) :
    List String × PyResult :=
  match extract_id url with
  | none =>
    (["[x] The URL or ID \"" ++ url ++ "\" looks incorrect. Please check it."],
     .sysExit 1)
  | some sid =>
    match fetch with
    | .notFound =>
      (["[x] The submission " ++ sid ++ " was not found."], .exn unboundMsg)
    | .forbidden =>
      (["[x] Not allowed to access the submission " ++ sid
          ++ ". That usually means the submission is on a private subreddit you do not have access to."],
       .exn unboundMsg)
    | .ok sub top =>
      let found := "[+] Submission " ++ sid ++ " found (\"" ++ sub.title ++ "\" on r/"
        ++ sub.subreddit ++ ", " ++ toString sub.num_comments
        ++ " replies), beginning download"
      match download_submission sid top with
      | .error key => ([found], .exn ("KeyError: " ++ key))
      | .ok (idx, forest) =>
        ([found, "[+] Submission downloaded."],
         .ok (generate_html cfgRoot fmt conv sub sid now_str "None"
           (treeOf idx ("t3_" ++ sid)) (forestFun forest)))

/-- main (lines 312-336) around one scrape_url call: SystemExit is not an
Exception and passes through; any other escaping exception is caught by
the general handler, reported as an uncaught problem, and re-raised. -/
def mainCall (fetch : FetchOutcome) (cfgRoot : String) (fmt : Nat → String)
    (conv : List Char → List Char) (now_str fname url : String) :
    List String × PyResult :=
  match scrape_url fetch cfgRoot fmt conv now_str url with
  | (msgs, .ok html) =>
    (msgs ++ ["[+] Submission structured.", "[=] Submission saved! Filename: " ++ fname],
     .ok html)
  | (msgs, .sysExit c) => (msgs, .sysExit c)
  | (msgs, .exn m) => (msgs ++ ["[x] Uncaught problem: " ++ m], .exn m)

/-- C8: when the fetcher raises NotFound or Forbidden, scrape_url prints
the distinct per-category message, but then falls through to the
generate_html call with the local submission unbound, so an
UnboundLocalError escapes and main surfaces it as a generic uncaught
failure and re-raises: the failure does not stay confined to the distinct
message category. -/
theorem c8_notfound_forbidden_uncaught (cfgRoot : String) (fmt : Nat → String)
    (conv : List Char → List Char) (now_str fname : String) :
    scrape_url .notFound cfgRoot fmt conv now_str "abc123"
      = (["[x] The submission abc123 was not found."], .exn unboundMsg) ∧
    scrape_url .forbidden cfgRoot fmt conv now_str "abc123"
      = (["[x] Not allowed to access the submission abc123. That usually means the submission is on a private subreddit you do not have access to."],
         .exn unboundMsg) ∧
    mainCall .notFound cfgRoot fmt conv now_str fname "abc123"
      = (["[x] The submission abc123 was not found.",
          "[x] Uncaught problem: " ++ unboundMsg], .exn unboundMsg) := by
  refine ⟨?_, ?_, ?_⟩ <;> rfl
